import Mathlib

/-!
Shallow embedding of the show-rule recipe engine (src/model/recipe.rs),
the tooling analysis functions (src/ide/analyze.rs) and the lexical path
normalization utility (src/util/mod.rs) of the typst document compiler,
together with theorems settling the specified behaviors.

External collaborators that the sources only call (Content, ShowNode,
Func, Value casts, the evaluator and its tracer, the World capabilities)
are modelled from the specification and marked as such; everything else
is translated directly from the source files.
-/

/-- Process-wide stable token distinguishing content node kinds
    (model::NodeId); used purely as an equality key. -/
abbrev NodeId := Nat

/-- Node identity of the list node kind, NodeId::of for ListNode.
    Distinct node kinds have distinct identities. -/
def listNodeId : NodeId := 0

/-- Node identity of the enumeration node kind, NodeId::of for EnumNode. -/
def enumNodeId : NodeId := 1

/-- A source span; it carries the id of the source file it points into
    (Span::source) and an offset. -/
structure Span where
  source : Nat
  pos : Nat
deriving DecidableEq, Repr

/-- Identifies a show rule recipe occurrence (recipe.rs, Selector):
    the nth recipe from the top of the chain, or the base recipe for a
    kind of node. -/
inductive Selector where
  | nth (n : Nat)
  | base (id : NodeId)
deriving DecidableEq, Repr

/-- A style entry. The guard variant marks content produced by the recipe
    identified by the selector; all other entry kinds are abstracted into
    an opaque tag, since the sources only construct guards. -/
inductive StyleEntry where
  | guard (sel : Selector)
  | other (tag : Nat)
deriving DecidableEq, Repr

mutual
/-- Runtime values (eval::Value), modelled from the spec as the tagged
    union of runtime results the evaluator and the resolver exchange:
    scalars, strings, dictionaries, content. The numeric constructor
    stands for the unit-carrying numeric values Value::numeric builds. -/
inductive Value where
  | none
  | auto
  | bool (b : Bool)
  | int (i : Int)
  | float (f : Float)
  | numeric (f : Float) (unit : String)
  | str (s : String)
  | dict (d : List (String × Value))
  | content (c : Content)

/-- Content tree nodes, modelled from the spec. The Show variant is the
    one the recipe engine constructs (Content::Show with an optional
    field encoding); styled wraps content with a style entry
    (content.styled_with_entry); every other content shape is abstracted
    into an opaque tag. -/
inductive Content where
  | Show (node : ShowNode) (dict : Option (List (String × Value)))
  | styled (inner : Content) (entry : StyleEntry)
  | other (tag : Nat)

/-- A showable node, modelled from the spec: it carries its node-kind
    identity, the guard markers currently attached to it, and its declared
    properties (the fields its encoding exposes). -/
inductive ShowNode where
  | mk (id : NodeId) (guards : List Selector) (fields : List (String × Value))
end

/-- The node-kind identity of a show node (ShowNode::id). -/
def ShowNode.id : ShowNode → NodeId
  | .mk i _ _ => i

/-- The guard markers currently attached to a show node. -/
def ShowNode.guards : ShowNode → List Selector
  | .mk _ gs _ => gs

/-- The declared properties of a show node. -/
def ShowNode.fields : ShowNode → List (String × Value)
  | .mk _ _ fs => fs

/-- Modelled from the spec: ShowNode::unguard (not among the sources)
    clears the guard for exactly the given selector on the node, leaving
    guards for every other selector in place. -/
def ShowNode.unguard (n : ShowNode) (sel : Selector) : ShowNode :=
  ShowNode.mk n.id (n.guards.filter (fun s => s != sel)) n.fields

/-- Modelled from the spec: ShowNode::encode (not among the sources)
    encodes the node as a field-name-to-value mapping exposing the node's
    declared properties. -/
def ShowNode.encode (n : ShowNode) : List (String × Value) :=
  n.fields

/-- Modelled from the spec: Content::styled_with_entry wraps the content
    with a style entry. -/
def Content.styled_with_entry (c : Content) (e : StyleEntry) : Content :=
  Content.styled c e

/-- Whether content carries a style entry, on its outermost styled layer
    or on a wrapped layer beneath it. -/
def Content.hasEntry : Content → StyleEntry → Bool
  | .styled inner e0, e => e0 == e || inner.hasEntry e
  | _, _ => false

/-- Diagnostic errors. Span tagging of errors (the At trait) is kept
    abstract; no claim under proof inspects the span carried by an error. -/
abbrev Error := String

/-- Modelled from the spec: a callable function value (eval::Func). It
    advertises an optional declared argument count (Func::argc) and a call
    behavior taking the argument values to a result. The mutable
    evaluation context threaded through calls is not modelled; no claim
    under proof inspects it. -/
structure Func where
  argc : Option Nat
  call : List Value → Except Error Value

/-- A show rule pattern that may match a target (recipe.rs, Pattern):
    today exactly one variant, matching by node-kind identity. -/
inductive Pattern where
  | node (id : NodeId)
deriving DecidableEq, Repr

/-- The node identity stored in a pattern. -/
def Pattern.nodeId : Pattern → NodeId
  | .node i => i

/-- A target for a show rule recipe (recipe.rs, Target): today exactly
    one variant, a showable node viewed by reference. -/
inductive Target where
  | node (n : ShowNode)

/-- A show rule recipe (recipe.rs, Recipe): the pattern to customize, the
    function that defines the recipe, and the span to report errors with. -/
structure Recipe where
  pattern : Pattern
  func : Func
  span : Span

/-- Recipe::applicable (recipe.rs lines 22-28): whether the recipe is
    applicable to the target, by comparing the pattern's node identity
    with the target's. The source's catch-all false arm is unreachable
    today because both enumerations have a single variant; the match here
    is total for the same reason. -/
def Recipe.applicable (r : Recipe) (target : Target) : Bool :=
  match r.pattern, target with
  | .node i, .node n => i == n.id

/-- Modelled from the spec: casting the function's return value to
    Content (the cast() call in recipe.rs line 63); a value that is not
    content-shaped fails with a type-cast error. -/
def Value.cast : Value → Except Error Content
  | .content c => Except.ok c
  | _ => Except.error "cast: expected content"

/-- Recipe::call (recipe.rs lines 52-64): call the recipe function, with
    the argument if desired. When the declared argument count is exactly
    zero the argument list is empty, otherwise it is the single lazily
    produced argument; the result is cast to content. -/
def Recipe.call (r : Recipe) (arg : Unit → Value) : Except Error Content :=
  let args : List Value :=
    if r.func.argc = some 0 then [] else [arg ()]
  match r.func.call args with
  | Except.error e => Except.error e
  | Except.ok v => v.cast

/-- Recipe::apply (recipe.rs lines 30-50): try to apply the recipe to the
    target. On a pattern match the node is unguarded for the selector, the
    function is called with the unguarded node and its encoding as the
    lazily built argument, and the produced content is wrapped with a
    guard entry for the selector; otherwise the result is Ok(None). -/
def Recipe.apply (r : Recipe) (sel : Selector) (target : Target) :
    Except Error (Option Content) :=
  match target, r.pattern with
  | .node node, .node i =>
    if node.id == i then
      let node := node.unguard sel
      match r.call (fun _ => Value.content (Content.Show node (some node.encode))) with
      | Except.error e => Except.error e
      | Except.ok content =>
        Except.ok (some (content.styled_with_entry (StyleEntry.guard sel)))
    else
      Except.ok Option.none

/-- What kind of structure an active recipe interrupts (model;
    recipe.rs only ever produces the list classification). -/
inductive Interruption where
  | list
deriving DecidableEq, Repr

/-- Recipe::interruption (recipe.rs lines 66-75): Some(List) when the
    pattern's node identity is the list or the enumeration node identity,
    None otherwise. -/
def Recipe.interruption (r : Recipe) : Option Interruption :=
  match r.pattern with
  | .node i =>
    if i == listNodeId || i == enumNodeId then some Interruption.list
    else Option.none

/-- The processing Recipe::apply performs around the raw result of the
    bound function's invocation: errors propagate, the returned value is
    cast to content, and the content is wrapped with a guard entry for the
    selector. -/
def applyPost (sel : Selector) (res : Except Error Value) :
    Except Error (Option Content) :=
  match res with
  | Except.error e => Except.error e
  | Except.ok v =>
    match v.cast with
    | Except.error e => Except.error e
    | Except.ok c => Except.ok (some (c.styled_with_entry (StyleEntry.guard sel)))

/-- The single argument value Recipe::apply builds for the bound function
    (recipe.rs lines 40-43): the matched node, unguarded for the selector,
    together with its field encoding. -/
def encodedArg (n : ShowNode) (sel : Selector) : Value :=
  Value.content (Content.Show (n.unguard sel) (some (n.unguard sel).encode))

/-- A component of a file-system path: std::path::Component restricted to
    the variants occurring in non-Windows paths. -/
inductive Component where
  | root
  | cur
  | parent
  | normal (s : String)
deriving DecidableEq, Repr

/-- One push of a component onto the output of normalize. Pushing the
    root component — an absolute path — replaces the buffer, exactly as
    PathBuf::push does; the output list is kept reversed, with the most
    recently pushed component first. -/
def pushComponent (out : List Component) (c : Component) : List Component :=
  match c with
  | Component.root => [Component.root]
  | _ => c :: out

/-- The loop of PathExt::normalize (util/mod.rs lines 209-224) over the
    remaining input components, with the output built so far kept in
    reverse order: current-directory components are dropped, a parent
    component pops the output when the most recently pushed component is
    a normal one and is pushed otherwise, and every other component is
    pushed. -/
def normalizeAux (out : List Component) : List Component → List Component
  | [] => out
  | c :: rest =>
    match c with
    | Component.cur => normalizeAux out rest
    | Component.parent =>
      match out with
      | Component.normal _ :: out2 => normalizeAux out2 rest
      | _ => normalizeAux (pushComponent out Component.parent) rest
    | _ => normalizeAux (pushComponent out c) rest

/-- PathExt::normalize (util/mod.rs lines 208-225): lexically normalize
    a path. -/
def PathExt.normalize (p : List Component) : List Component :=
  (normalizeAux [] p).reverse

/-- Splits a character list at slashes, accumulating the current segment
    in reverse; the backbone of path parsing. -/
def splitSlashAux : List Char → List Char → List (List Char)
  | [], acc => [acc.reverse]
  | c :: rest, acc =>
    if c = '/' then acc.reverse :: splitSlashAux rest []
    else splitSlashAux rest (c :: acc)

/-- Whether the path string starts with the path separator. -/
def isRootedStr (s : String) : Bool :=
  match s.data with
  | '/' :: _ => true
  | _ => false

/-- Whether a relative path begins with a lone current-directory segment,
    the condition under which std::path::Components keeps a leading
    CurDir component. -/
def hasCurDirStart : List Char → Bool
  | ['.'] => true
  | '.' :: '/' :: _ => true
  | _ => false

/-- The components of a path string, mirroring std::path::Path::components
    on unix: repeated separators collapse, interior single-dot segments
    are dropped, a leading separator yields the root component, a leading
    lone dot on a relative path yields the current-directory component,
    and a double-dot segment yields a parent component. -/
def pathComponents (s : String) : List Component :=
  let segs := (splitSlashAux s.data []).filter (fun t => !t.isEmpty && t != ['.'])
  let comps := segs.map
    (fun t => if t = ['.', '.'] then Component.parent else Component.normal (String.mk t))
  if isRootedStr s then Component.root :: comps
  else if hasCurDirStart s.data then Component.cur :: comps
  else comps

/-- Whether a component path is absolute. -/
def isAbsolute : List Component → Bool
  | Component.root :: _ => true
  | _ => false

/-- Path::join at the component level: joining an absolute path replaces
    the base, joining a relative path appends its components. -/
def joinPath (base p : List Component) : List Component :=
  if isAbsolute p then p else base ++ p

/-- Path::parent at the component level: none for the empty path and for
    the bare root, otherwise the path without its last component. -/
def parentPath : List Component → Option (List Component)
  | [] => Option.none
  | [Component.root] => Option.none
  | l => some l.dropLast

/-- str::strip_prefix with the separator character: the remainder of the
    string when it starts with a slash. -/
def stripLeadingSlash (s : String) : Option String :=
  match s.data with
  | c :: rest => if c = '/' then some (String.mk rest) else Option.none
  | [] => Option.none

/-- The full-path computation of analyze_import (analyze.rs lines 54-60):
    a path with a leading slash is stripped of it and joined to the
    project root, any other path is joined to the parent directory of the
    importing source file, and both joins are lexically normalized; when
    the importing source path has no parent directory the import path is
    used as given. -/
def importFullPath (root : List Component) (srcPath path : String) :
    List Component :=
  match stripLeadingSlash path with
  | some rest => PathExt.normalize (joinPath root (pathComponents rest))
  | Option.none =>
    match parentPath (pathComponents srcPath) with
    | some dir => PathExt.normalize (joinPath dir (pathComponents path))
    | Option.none => pathComponents path

/-- Identity of a source file (SourceId). -/
abbrev SourceId := Nat

/-- A source file handle: its identity and its file-system path
    (Source::path). -/
structure Source where
  id : SourceId
  path : String

/-- The module resulting from evaluating a source file (model::Module);
    its top-level bindings are irrelevant to the claims, so it stays
    abstract. Named EvalModule because the source's name Module is taken
    by the library. -/
abbrev EvalModule := Nat

/-- Outcome of one run of the external evaluator over a source file with
    a tracer probing a span: the evaluation result, and the values the
    tracer observed at the probed span in production order — exactly what
    Tracer::finish drains, also when the run ended in an error. -/
structure EvalOutcome where
  result : Except Error EvalModule
  traced : List Value

/-- Modelled from the spec: the environment capabilities (World) together
    with the external evaluator eval(world, route, tracer, source), which
    are not part of the sources under verification. evalProbe abstracts an
    evaluator run with a tracer bound to a span; evalModule abstracts a
    run with a default tracer whose collected values are unused. resolve
    turns a path into a source identity and can fail; sourceOf fetches a
    source by identity and cannot. -/
structure World where
  root : List Component
  sourceOf : SourceId → Source
  resolve : List Component → Except Error SourceId
  evalModule : Source → Except Error EvalModule
  evalProbe : Source → Span → EvalOutcome

/-- The expression shapes analyze_expr distinguishes (analyze.rs lines
    12-45): the literal kinds, a field access together with its base
    expression (the first child of the node), any other expression kind
    carrying its span, and a syntax node that does not cast to an
    expression at all. -/
inductive ExprNode where
  | litNone
  | litAuto
  | litBool (b : Bool)
  | litInt (i : Int)
  | litFloat (f : Float)
  | litNumeric (f : Float) (unit : String)
  | litStr (s : String)
  | fieldAccess (base : ExprNode) (field : String)
  | otherExpr (span : Span)
  | nonExpr

/-- Modelled from the spec: Value::field, the field projection used by
    analyze_expr; it succeeds on a dictionary owning the field and fails
    for a wrong type or an absent field. -/
def Value.field (v : Value) (name : String) : Except Error Value :=
  match v with
  | .dict d =>
    match d.lookup name with
    | some x => Except.ok x
    | Option.none => Except.error "missing field"
  | _ => Except.error "cannot access field"

/-- analyze_expr (analyze.rs lines 11-46). Literals resolve directly; a
    field access resolves its base (the first child) and keeps the
    successful projections of the field over the candidates, in order; any
    other expression runs the full evaluation of its enclosing source with
    a probe at its span, discards the evaluation result with .ok(), and
    returns the tracer's collected values; a non-expression node resolves
    to nothing. The delegation arm for non-leftmost children of a field
    access (lines 30-34) re-enters at the enclosing parent node; the
    recursion below only ever descends into first children (index zero),
    for which that arm never fires, so it needs no representation here. -/
def analyzeExpr (w : World) : ExprNode → List Value
  | .litNone => [Value.none]
  | .litAuto => [Value.auto]
  | .litBool b => [Value.bool b]
  | .litInt i => [Value.int i]
  | .litFloat f => [Value.float f]
  | .litNumeric f u => [Value.numeric f u]
  | .litStr s => [Value.str s]
  | .fieldAccess base f =>
    (analyzeExpr w base).filterMap (fun t => (t.field f).toOption)
  | .otherExpr span => (w.evalProbe (w.sourceOf span.source) span).traced
  | .nonExpr => []

/-- analyze_import (analyze.rs lines 49-66): compute the full import
    path, resolve it to a source identity — bailing out with no module on
    failure — then evaluate that source, turning an evaluation error into
    no module as well. -/
def analyzeImport (w : World) (src : Source) (path : String) : Option EvalModule :=
  let full := importFullPath w.root src.path path
  match w.resolve full with
  | Except.error _ => Option.none
  | Except.ok i => (w.evalModule (w.sourceOf i)).toOption

/-- A span used by the concrete test fixtures. -/
def span0 : Span := Span.mk 0 0

/-- A function with declared arity zero returning plain content. -/
def funcOk0 : Func :=
  Func.mk (some 0) (fun _ => Except.ok (Value.content (Content.other 7)))

/-- A function with unknown declared arity. -/
def funcUnknown : Func :=
  Func.mk Option.none (fun _ => Except.ok (Value.content (Content.other 8)))

/-- A recipe whose pattern matches node identity five. -/
def recipe5 : Recipe := Recipe.mk (Pattern.node 5) funcOk0 span0

/-- A recipe for node identity five whose function has unknown arity. -/
def recipe5U : Recipe := Recipe.mk (Pattern.node 5) funcUnknown span0

/-- A recipe whose pattern carries the list node identity. -/
def recipeList : Recipe := Recipe.mk (Pattern.node listNodeId) funcOk0 span0

/-- A bare node of identity five. -/
def node5 : ShowNode := ShowNode.mk 5 [] []

/-- A bare node of identity six. -/
def node6 : ShowNode := ShowNode.mk 6 [] []

/-- A span inside source file one. -/
def span1 : Span := Span.mk 1 5

/-- The importing source file of the concrete import example. -/
def srcMain : Source := Source.mk 1 "/proj/sub/b.typ"

/-- A concrete world: every probe observes three values of which the
    first and third own field b, while the evaluation run itself fails;
    path resolution always fails. -/
def w3 : World :=
  World.mk [Component.root, Component.normal "proj"]
    (fun _ => srcMain)
    (fun _ => Except.error "file not found")
    (fun _ => Except.error "module evaluation failed")
    (fun _ _ => EvalOutcome.mk (Except.error "evaluation failed")
      [Value.dict [("b", Value.int 10)], Value.int 2,
       Value.dict [("b", Value.int 30)]])

/-- The base expression of the concrete field-access example: probed
    evaluation yielding the three candidates recorded by w3. -/
def base3 : ExprNode := ExprNode.otherExpr span1

/-- The shape of the output of normalize past its normal components, in
    reverse order: parent components and then at most one root. -/
def parentsThenRoot : List Component → Bool
  | [] => true
  | Component.root :: rest => rest.isEmpty
  | Component.parent :: rest => parentsThenRoot rest
  | _ => false

/-- Normal form of the reversed output of normalize: normal components
    first, then parent components, then at most one root. -/
def revNF : List Component → Bool
  | [] => true
  | Component.normal _ :: rest => revNF rest
  | Component.root :: rest => rest.isEmpty
  | Component.parent :: rest => parentsThenRoot rest
  | Component.cur :: _ => false

/-- Whether every component of the list is a normal segment. -/
def allNormal (l : List Component) : Bool :=
  l.all (fun c => match c with | Component.normal _ => true | _ => false)

/-- Recipe::apply on a target whose node identity equals the pattern's:
    it calls the bound function on the arity-dispatched argument list and
    postprocesses the outcome (error propagation, content cast, guard
    wrap). Shared characterization behind the apply and call claims. -/
theorem apply_matching_eq (f : Func) (sp : Span) (sel : Selector) (n : ShowNode) :
    (Recipe.mk (Pattern.node n.id) f sp).apply sel (Target.node n)
      = applyPost sel
          (f.call (if f.argc = some 0 then [] else [encodedArg n sel])) := by
  have key : ∀ res : Except Error Value,
      (match res with
        | Except.error e => Except.error e
        | Except.ok v =>
          match v.cast with
          | Except.error e => Except.error e
          | Except.ok c =>
            Except.ok (some (c.styled_with_entry (StyleEntry.guard sel))))
        = applyPost sel res := by
    intro res
    cases res with
    | error e => rfl
    | ok v =>
      cases hv : v.cast with
      | error e => simp [applyPost, hv]
      | ok c => simp [applyPost, hv]
  simp only [Recipe.apply, Recipe.call, encodedArg, beq_self_eq_true, if_true]
  rw [← key (Func.call f (if f.argc = some 0 then [] else
    [Value.content (Content.Show (n.unguard sel) (some (n.unguard sel).encode))]))]
  cases Func.call f (if f.argc = some 0 then [] else
      [Value.content (Content.Show (n.unguard sel) (some (n.unguard sel).encode))]) with
  | error e => rfl
  | ok v => rfl

/-- C6: Recipe::applicable is true exactly when the node identity carried
    by the target equals the identity stored in the pattern, and false
    exactly otherwise; being a total boolean function of pattern and
    target it cannot panic, and any non-equal combination yields false. -/
theorem applicable_iff_id_eq (r : Recipe) (n : ShowNode) :
    (r.applicable (Target.node n) = true ↔ r.pattern.nodeId = n.id) ∧
    (r.applicable (Target.node n) = false ↔ r.pattern.nodeId ≠ n.id) := by
  obtain ⟨p, f, sp⟩ := r
  obtain ⟨i⟩ := p
  constructor
  · simp [Recipe.applicable, Pattern.nodeId]
  · simp [Recipe.applicable, Pattern.nodeId]

/-- C6 witness at concrete inputs: the node-five pattern applies to the
    node of identity five and not to the node of identity six. -/
theorem applicable_iff_id_eq_witness :
    recipe5.applicable (Target.node node5) = true ∧
    recipe5.applicable (Target.node node6) = false :=
  And.intro
    ((applicable_iff_id_eq recipe5 node5).1.mpr rfl)
    ((applicable_iff_id_eq recipe5 node6).2.mpr (by decide))

/-- C7: Recipe::interruption yields Some(List) exactly when the pattern's
    node identity is the list or the enumeration node identity, yields
    None for every other pattern, and depends only on the pattern. -/
theorem interruption_iff_list_or_enum (r : Recipe) :
    (r.interruption = some Interruption.list ↔
      r.pattern.nodeId = listNodeId ∨ r.pattern.nodeId = enumNodeId) ∧
    (r.interruption = Option.none ↔
      ¬(r.pattern.nodeId = listNodeId ∨ r.pattern.nodeId = enumNodeId)) ∧
    (∀ (g : Func) (sp2 : Span),
      (Recipe.mk r.pattern g sp2).interruption = r.interruption) := by
  obtain ⟨p, f, sp⟩ := r
  obtain ⟨i⟩ := p
  refine ⟨?_, ?_, fun g sp2 => rfl⟩ <;>
    by_cases h1 : i = listNodeId <;> by_cases h2 : i = enumNodeId <;>
      simp [Recipe.interruption, Pattern.nodeId, h1, h2]

/-- C7 witness at concrete inputs: the list-pattern recipe interrupts
    with the list classification, the node-five recipe does not. -/
theorem interruption_iff_list_or_enum_witness :
    recipeList.interruption = some Interruption.list ∧
    recipe5.interruption = Option.none :=
  And.intro
    ((interruption_iff_list_or_enum recipeList).1.mpr (Or.inl rfl))
    ((interruption_iff_list_or_enum recipe5).2.1.mpr (by decide))

/-- C8: on a target whose node identity does not match the pattern,
    Recipe::apply returns Ok(None) — not an error — and does so for every
    bound function, so the function is never consulted. -/
theorem apply_nonmatching_none (r : Recipe) (sel : Selector) (n : ShowNode)
    (h : r.applicable (Target.node n) = false) :
    r.apply sel (Target.node n) = Except.ok Option.none ∧
    ∀ g : Func, (Recipe.mk r.pattern g r.span).apply sel (Target.node n)
        = Except.ok Option.none := by
  obtain ⟨p, f, sp⟩ := r
  obtain ⟨i⟩ := p
  simp only [Recipe.applicable] at h
  have hne : ¬(n.id = i) := by
    intro hh
    rw [hh] at h
    simp at h
  constructor
  · simp [Recipe.apply, hne]
  · intro g
    simp [Recipe.apply, hne]

/-- C8 witness at concrete inputs: the node-five recipe applied to the
    node of identity six yields Ok(None). -/
theorem apply_nonmatching_none_witness :
    recipe5.apply (Selector.nth 1) (Target.node node6) = Except.ok Option.none :=
  (apply_nonmatching_none recipe5 (Selector.nth 1) node6 rfl).1

/-- C1: when the target's node identity matches the recipe's pattern and
    Recipe::apply succeeds, the result is Ok(Some(content)) and that
    content carries the style entry Guard(selector). -/
theorem apply_success_carries_guard (r : Recipe) (sel : Selector)
    (n : ShowNode) (res : Option Content)
    (happ : r.applicable (Target.node n) = true)
    (hok : r.apply sel (Target.node n) = Except.ok res) :
    ∃ c, res = some c ∧ c.hasEntry (StyleEntry.guard sel) = true := by
  obtain ⟨p, f, sp⟩ := r
  obtain ⟨i⟩ := p
  have hid : i = n.id := by simpa [Recipe.applicable] using happ
  subst hid
  rw [apply_matching_eq f sp sel n] at hok
  unfold applyPost at hok
  cases hc : f.call (if f.argc = some 0 then [] else [encodedArg n sel]) with
  | error e =>
    rw [hc] at hok
    dsimp only at hok
    exact Except.noConfusion hok
  | ok v =>
    rw [hc] at hok
    dsimp only at hok
    cases hv : v.cast with
    | error e =>
      rw [hv] at hok
      exact Except.noConfusion hok
    | ok c =>
      rw [hv] at hok
      injection hok with h2
      exact ⟨c.styled_with_entry (StyleEntry.guard sel), h2.symm,
        by simp [Content.styled_with_entry, Content.hasEntry]⟩

/-- C1 witness at concrete inputs: applying the node-five recipe to the
    node of identity five produces content guarded by the selector. -/
theorem apply_success_carries_guard_witness :
    ∃ c, (some (Content.styled (Content.other 7)
          (StyleEntry.guard (Selector.nth 0))) : Option Content) = some c ∧
      c.hasEntry (StyleEntry.guard (Selector.nth 0)) = true :=
  apply_success_carries_guard recipe5 (Selector.nth 0) node5
    (some (Content.styled (Content.other 7) (StyleEntry.guard (Selector.nth 0))))
    rfl rfl

/-- C2: on a matching target, a declared arity of zero calls the bound
    function with no arguments; a declared arity of one calls it with the
    single encoded-node argument; and every invocation whatsoever is one
    of these two shapes, so no other arity gets an argument list of its
    own. -/
theorem call_arity_dispatch (r : Recipe) (sel : Selector) (n : ShowNode)
    (happ : r.applicable (Target.node n) = true) :
    (r.func.argc = some 0 →
      r.apply sel (Target.node n) = applyPost sel (r.func.call [])) ∧
    (r.func.argc = some 1 →
      r.apply sel (Target.node n)
        = applyPost sel (r.func.call [encodedArg n sel])) ∧
    (r.apply sel (Target.node n) = applyPost sel (r.func.call [])
      ∨ r.apply sel (Target.node n)
          = applyPost sel (r.func.call [encodedArg n sel])) := by
  obtain ⟨p, f, sp⟩ := r
  obtain ⟨i⟩ := p
  have hid : i = n.id := by simpa [Recipe.applicable] using happ
  subst hid
  refine ⟨?_, ?_, ?_⟩
  · intro h0
    rw [apply_matching_eq f sp sel n, if_pos h0]
  · intro h1
    rw [apply_matching_eq f sp sel n,
      if_neg (by intro hh; rw [h1] at hh; simp at hh)]
  · by_cases h0 : f.argc = some 0
    · exact Or.inl (by rw [apply_matching_eq f sp sel n, if_pos h0])
    · exact Or.inr (by rw [apply_matching_eq f sp sel n, if_neg h0])

/-- C2 witness at concrete inputs: the zero-arity recipe function is
    invoked on the empty argument list. -/
theorem call_arity_dispatch_witness :
    recipe5.apply (Selector.nth 2) (Target.node node5)
      = applyPost (Selector.nth 2) (recipe5.func.call []) :=
  (call_arity_dispatch recipe5 (Selector.nth 2) node5 rfl).1 rfl

/-- C9: on a matching target, every declared arity other than exactly
    zero — the unknown arity included — makes Recipe::call pass exactly
    the one encoded-node argument. -/
theorem call_nonzero_arity_single_arg (r : Recipe) (sel : Selector)
    (n : ShowNode)
    (happ : r.applicable (Target.node n) = true)
    (h : r.func.argc ≠ some 0) :
    r.apply sel (Target.node n)
      = applyPost sel (r.func.call [encodedArg n sel]) := by
  obtain ⟨p, f, sp⟩ := r
  obtain ⟨i⟩ := p
  have hid : i = n.id := by simpa [Recipe.applicable] using happ
  subst hid
  rw [apply_matching_eq f sp sel n, if_neg h]

/-- C9 witness at concrete inputs: the unknown-arity recipe function
    receives the single encoded-node argument. -/
theorem call_nonzero_arity_single_arg_witness :
    recipe5U.apply (Selector.nth 3) (Target.node node5)
      = applyPost (Selector.nth 3)
          (recipe5U.func.call [encodedArg node5 (Selector.nth 3)]) :=
  call_nonzero_arity_single_arg recipe5U (Selector.nth 3) node5 rfl (by decide)

/-- A filterMap over a list all of whose elements map to none produces
    the empty list. -/
theorem filterMap_none_eq_nil {α β : Type} (g : α → Option β) :
    ∀ l : List α, (∀ v ∈ l, g v = Option.none) → l.filterMap g = []
  | [], _ => rfl
  | a :: rest, h => by
    have ha : g a = Option.none := h a (List.mem_cons_self a rest)
    have hrest := filterMap_none_eq_nil g rest
      (fun v hv => h v (List.mem_cons_of_mem a hv))
    simp [List.filterMap_cons, ha, hrest]

/-- C3: resolving a field access resolves the base expression — the
    first child — to its ordered candidate list, projects the field over
    each candidate, drops the candidates whose projection fails and keeps
    the successful projections in input order; an empty candidate list,
    or one in which no candidate owns the field, yields the empty result
    rather than an error. -/
theorem analyze_field_access_union (w : World) (base : ExprNode) (f : String) :
    analyzeExpr w (ExprNode.fieldAccess base f)
      = (analyzeExpr w base).filterMap (fun v => (v.field f).toOption) ∧
    (analyzeExpr w base = [] →
      analyzeExpr w (ExprNode.fieldAccess base f) = []) ∧
    ((∀ v ∈ analyzeExpr w base, (v.field f).toOption = Option.none) →
      analyzeExpr w (ExprNode.fieldAccess base f) = []) := by
  refine ⟨rfl, ?_, ?_⟩
  · intro h
    simp [analyzeExpr, h]
  · intro h
    show (analyzeExpr w base).filterMap (fun v => (v.field f).toOption) = []
    exact filterMap_none_eq_nil _ _ h

/-- C3 witness at concrete inputs, the worked example of the spec: three
    candidates of which exactly the first and the third own field b
    resolve to the two successful projections, in input order. -/
theorem analyze_field_access_union_witness :
    analyzeExpr w3 (ExprNode.fieldAccess base3 "b")
      = [Value.int 10, Value.int 30] := by
  rw [(analyze_field_access_union w3 base3 "b").1]
  rfl

/-- C4: the full-evaluation fallback of analyze_expr returns exactly the
    values the tracer collected at the probed span — in particular it
    swallows an evaluation error — and analyze_import yields no module,
    rather than an error, both when path resolution fails and when the
    evaluation of the resolved source fails. -/
theorem best_effort_no_error (w : World) (span : Span) (src : Source)
    (path : String) :
    (analyzeExpr w (ExprNode.otherExpr span)
      = (w.evalProbe (w.sourceOf span.source) span).traced) ∧
    (∀ e : Error,
      (w.evalProbe (w.sourceOf span.source) span).result = Except.error e →
      analyzeExpr w (ExprNode.otherExpr span)
        = (w.evalProbe (w.sourceOf span.source) span).traced) ∧
    (∀ e : Error,
      w.resolve (importFullPath w.root src.path path) = Except.error e →
      analyzeImport w src path = Option.none) ∧
    (∀ (i : SourceId) (e : Error),
      w.resolve (importFullPath w.root src.path path) = Except.ok i →
      w.evalModule (w.sourceOf i) = Except.error e →
      analyzeImport w src path = Option.none) := by
  refine ⟨rfl, fun e h => rfl, fun e h => ?_, fun i e h1 h2 => ?_⟩
  · simp [analyzeImport, h]
  · simp [analyzeImport, h1, h2, Except.toOption]

/-- C4 witness at concrete inputs: the probed evaluation fails yet the
    collected values come back, and a failing path resolution yields no
    module. -/
theorem best_effort_no_error_witness :
    analyzeExpr w3 (ExprNode.otherExpr span1)
      = [Value.dict [("b", Value.int 10)], Value.int 2,
         Value.dict [("b", Value.int 30)]] ∧
    analyzeImport w3 srcMain "x.typ" = Option.none :=
  And.intro
    (by
      rw [(best_effort_no_error w3 span1 srcMain
        "x.typ").2.1 "evaluation failed" rfl]
      rfl)
    ((best_effort_no_error w3 span1 srcMain
      "x.typ").2.2.1 "file not found" rfl)

/-- Processing a concatenation processes the two pieces in sequence. -/
theorem normalizeAux_append (p q : List Component) :
    ∀ out, normalizeAux out (p ++ q) = normalizeAux (normalizeAux out p) q := by
  induction p with
  | nil => intro out; rfl
  | cons c rest ih =>
    intro out
    cases c with
    | root => simpa only [List.cons_append, normalizeAux, pushComponent] using ih _
    | cur => simpa only [List.cons_append, normalizeAux] using ih _
    | normal s =>
      simpa only [List.cons_append, normalizeAux, pushComponent] using ih _
    | parent =>
      cases out with
      | nil => simpa only [List.cons_append, normalizeAux, pushComponent] using ih _
      | cons hd tl =>
        cases hd with
        | normal s => simpa only [List.cons_append, normalizeAux] using ih _
        | root =>
          simpa only [List.cons_append, normalizeAux, pushComponent] using ih _
        | cur =>
          simpa only [List.cons_append, normalizeAux, pushComponent] using ih _
        | parent =>
          simpa only [List.cons_append, normalizeAux, pushComponent] using ih _

/-- The loop of normalize preserves the reversed normal form of its
    output accumulator. -/
theorem revNF_normalizeAux :
    ∀ (p out : List Component), revNF out = true →
      revNF (normalizeAux out p) = true := by
  intro p
  induction p with
  | nil => intro out h; exact h
  | cons c rest ih =>
    intro out h
    cases c with
    | cur =>
      simp only [normalizeAux]
      exact ih out h
    | root =>
      simp only [normalizeAux, pushComponent]
      exact ih [Component.root] rfl
    | normal s =>
      simp only [normalizeAux, pushComponent]
      exact ih (Component.normal s :: out) (by simpa [revNF] using h)
    | parent =>
      cases out with
      | nil =>
        simp only [normalizeAux, pushComponent]
        exact ih [Component.parent] rfl
      | cons hd tl =>
        cases hd with
        | normal s =>
          simp only [normalizeAux]
          exact ih tl (by simpa [revNF] using h)
        | root =>
          have htl : tl = [] := by
            simpa [revNF, List.isEmpty_iff] using h
          subst htl
          simp only [normalizeAux, pushComponent]
          exact ih [Component.parent, Component.root] rfl
        | parent =>
          simp only [normalizeAux, pushComponent]
          exact ih (Component.parent :: Component.parent :: tl)
            (by simpa [revNF, parentsThenRoot] using h)
        | cur => exact absurd h (by simp [revNF])

/-- Processing a run of normal components pushes each of them. -/
theorem normalizeAux_all_normal :
    ∀ ns : List Component, allNormal ns = true →
      ∀ out, normalizeAux out ns = ns.reverse ++ out := by
  intro ns
  induction ns with
  | nil => intro _ out; rfl
  | cons c rest ih =>
    intro h out
    cases c with
    | normal s =>
      have hrest : allNormal rest = true := by
        simpa [allNormal] using h
      simp only [normalizeAux, pushComponent]
      rw [ih hrest (Component.normal s :: out)]
      simp
    | root => exact absurd h (by simp [allNormal])
    | cur => exact absurd h (by simp [allNormal])
    | parent => exact absurd h (by simp [allNormal])

/-- A parent component consed between a replicate block and a suffix
    absorbs into the block. -/
theorem replicate_parent_cons (k : Nat) (x : List Component) :
    List.replicate k Component.parent ++ (Component.parent :: x)
      = List.replicate (k + 1) Component.parent ++ x := by
  rw [List.replicate_succ']
  simp [List.append_assoc]

/-- Processing a run of parent components over an output that holds no
    normal component pushes each of them. -/
theorem normalizeAux_parents (k : Nat) :
    ∀ out ns : List Component, parentsThenRoot out = true →
      normalizeAux out (List.replicate k Component.parent ++ ns)
        = normalizeAux (List.replicate k Component.parent ++ out) ns := by
  induction k with
  | zero => intro out ns _; rfl
  | succ k ih =>
    intro out ns h
    rw [List.replicate_succ, List.cons_append]
    cases out with
    | nil =>
      simp only [normalizeAux, pushComponent]
      rw [ih [Component.parent] ns rfl, replicate_parent_cons]
      rw [List.replicate_succ, List.cons_append]
    | cons hd tl =>
      cases hd with
      | root =>
        have htl : tl = [] := by
          simpa [parentsThenRoot, List.isEmpty_iff] using h
        subst htl
        simp only [normalizeAux, pushComponent]
        rw [ih (Component.parent :: [Component.root]) ns rfl,
          replicate_parent_cons]
        rw [List.replicate_succ, List.cons_append]
      | parent =>
        simp only [normalizeAux, pushComponent]
        rw [ih (Component.parent :: Component.parent :: tl) ns
          (by simpa [parentsThenRoot] using h), replicate_parent_cons]
        rw [List.replicate_succ, List.cons_append]
      | cur => exact absurd h (by simp [parentsThenRoot])
      | normal s => exact absurd h (by simp [parentsThenRoot])

/-- Any list of the parents-then-root shape is a replicate block followed
    by an optional root. -/
theorem parentsThenRoot_decomp :
    ∀ l : List Component, parentsThenRoot l = true →
      ∃ k r, l = List.replicate k Component.parent ++ r ∧
        (r = [] ∨ r = [Component.root]) := by
  intro l
  induction l with
  | nil => intro _; exact ⟨0, [], rfl, Or.inl rfl⟩
  | cons c rest ih =>
    intro h
    cases c with
    | root =>
      have hrest : rest = [] := by
        simpa [parentsThenRoot, List.isEmpty_iff] using h
      subst hrest
      exact ⟨0, [Component.root], rfl, Or.inr rfl⟩
    | parent =>
      obtain ⟨k, r, hl, hr⟩ := ih (by simpa [parentsThenRoot] using h)
      exact ⟨k + 1, r, by rw [List.replicate_succ, List.cons_append, ← hl], hr⟩
    | cur => exact absurd h (by simp [parentsThenRoot])
    | normal s => exact absurd h (by simp [parentsThenRoot])

/-- Any list in reversed normal form decomposes into normal components, a
    replicate block of parents, and an optional root. -/
theorem revNF_decomp :
    ∀ l : List Component, revNF l = true →
      ∃ ns k r, l = ns ++ List.replicate k Component.parent ++ r ∧
        allNormal ns = true ∧ (r = [] ∨ r = [Component.root]) := by
  intro l
  induction l with
  | nil => intro _; exact ⟨[], 0, [], rfl, rfl, Or.inl rfl⟩
  | cons c rest ih =>
    intro h
    cases c with
    | normal s =>
      obtain ⟨ns, k, r, hl, hns, hr⟩ := ih (by simpa [revNF] using h)
      exact ⟨Component.normal s :: ns, k, r, by simp [hl],
        by simpa [allNormal] using hns, hr⟩
    | root =>
      have hrest : rest = [] := by
        simpa [revNF, List.isEmpty_iff] using h
      subst hrest
      exact ⟨[], 0, [Component.root], rfl, rfl, Or.inr rfl⟩
    | parent =>
      obtain ⟨k, r, hl, hr⟩ :=
        parentsThenRoot_decomp rest (by simpa [revNF] using h)
      exact ⟨[], k + 1, r, by simp [hl, List.replicate_succ], rfl, hr⟩
    | cur => exact absurd h (by simp [revNF])

/-- Re-running the normalize loop over a reversed normal form reproduces
    it: such lists are fixpoints of the loop. -/
theorem normalizeAux_reverse_of_revNF (l : List Component)
    (h : revNF l = true) : normalizeAux [] l.reverse = l := by
  obtain ⟨ns, k, r, hl, hns, hr⟩ := revNF_decomp l h
  subst hl
  have hnsrev : allNormal ns.reverse = true := by
    simpa [allNormal, List.all_reverse] using hns
  rcases hr with hr | hr <;> subst hr
  · rw [List.append_nil]
    rw [List.reverse_append, List.reverse_replicate]
    rw [normalizeAux_parents k [] ns.reverse rfl,
      normalizeAux_all_normal ns.reverse hnsrev, List.reverse_reverse,
      List.append_nil]
  · rw [List.reverse_append, List.reverse_append, List.reverse_replicate]
    simp only [List.reverse_cons, List.reverse_nil, List.nil_append,
      List.cons_append, List.append_assoc]
    show normalizeAux []
        (Component.root :: (List.replicate k Component.parent ++ ns.reverse))
      = ns ++ (List.replicate k Component.parent ++ [Component.root])
    simp only [normalizeAux, pushComponent]
    rw [normalizeAux_parents k [Component.root] ns.reverse rfl,
      normalizeAux_all_normal ns.reverse hnsrev, List.reverse_reverse]

/-- C10: lexical path normalization is idempotent. -/
theorem normalize_idempotent (p : List Component) :
    PathExt.normalize (PathExt.normalize p) = PathExt.normalize p := by
  have h1 : revNF (normalizeAux [] p) = true := revNF_normalizeAux p [] rfl
  have h2 := normalizeAux_reverse_of_revNF (normalizeAux [] p) h1
  unfold PathExt.normalize
  rw [h2]

/-- No current-directory component survives in a parents-then-root
    shaped list. -/
theorem cur_not_mem_parentsThenRoot :
    ∀ l : List Component, parentsThenRoot l = true → Component.cur ∉ l := by
  intro l
  induction l with
  | nil => intro _ hm; cases hm
  | cons c rest ih =>
    intro h hm
    cases c with
    | root =>
      have hrest : rest = [] := by
        simpa [parentsThenRoot, List.isEmpty_iff] using h
      subst hrest
      rcases List.mem_cons.mp hm with h1 | h1
      · exact Component.noConfusion h1
      · cases h1
    | parent =>
      rcases List.mem_cons.mp hm with h1 | h1
      · exact Component.noConfusion h1
      · exact ih (by simpa [parentsThenRoot] using h) h1
    | cur => simp [parentsThenRoot] at h
    | normal s => simp [parentsThenRoot] at h

/-- No current-directory component survives in a reversed normal form. -/
theorem cur_not_mem_revNF :
    ∀ l : List Component, revNF l = true → Component.cur ∉ l := by
  intro l
  induction l with
  | nil => intro _ hm; cases hm
  | cons c rest ih =>
    intro h hm
    cases c with
    | normal s =>
      rcases List.mem_cons.mp hm with h1 | h1
      · exact Component.noConfusion h1
      · exact ih (by simpa [revNF] using h) h1
    | root =>
      have hrest : rest = [] := by
        simpa [revNF, List.isEmpty_iff] using h
      subst hrest
      rcases List.mem_cons.mp hm with h1 | h1
      · exact Component.noConfusion h1
      · cases h1
    | parent =>
      rcases List.mem_cons.mp hm with h1 | h1
      · exact Component.noConfusion h1
      · exact cur_not_mem_parentsThenRoot rest
          (by simpa [revNF] using h) h1
    | cur => simp [revNF] at h

/-- C5: analyze_import resolves a slash-anchored import path against the
    project root and any other import path against the importing file's
    containing directory, and lexically normalizes the joined path —
    normalization eliminates every current-directory segment and cancels
    a parent segment against the normal segment preceding it. In
    particular importing a.typ from /proj/sub/b.typ yields
    /proj/sub/a.typ, and importing /a.typ under project root /proj yields
    /proj/a.typ. -/
theorem import_path_resolution (root dir : List Component)
    (srcPath path : String) :
    (importFullPath [Component.root, Component.normal "proj"]
        "/proj/sub/b.typ" "a.typ"
      = [Component.root, Component.normal "proj", Component.normal "sub",
         Component.normal "a.typ"]) ∧
    (importFullPath [Component.root, Component.normal "proj"]
        "/proj/sub/b.typ" "/a.typ"
      = [Component.root, Component.normal "proj",
         Component.normal "a.typ"]) ∧
    (∀ rest : String, stripLeadingSlash path = some rest →
      importFullPath root srcPath path
        = PathExt.normalize (joinPath root (pathComponents rest))) ∧
    (stripLeadingSlash path = Option.none →
      parentPath (pathComponents srcPath) = some dir →
      importFullPath root srcPath path
        = PathExt.normalize (joinPath dir (pathComponents path))) ∧
    (∀ q : List Component, Component.cur ∉ PathExt.normalize q) ∧
    (∀ (q : List Component) (s : String),
      PathExt.normalize (q ++ [Component.normal s, Component.parent])
        = PathExt.normalize q) := by
  refine ⟨rfl, rfl, ?_, ?_, ?_, ?_⟩
  · intro rest h
    simp only [importFullPath, h]
  · intro h1 h2
    simp only [importFullPath, h1, h2]
  · intro q hm
    rw [PathExt.normalize, List.mem_reverse] at hm
    exact cur_not_mem_revNF _ (revNF_normalizeAux q [] rfl) hm
  · intro q s
    unfold PathExt.normalize
    rw [normalizeAux_append]
    simp [normalizeAux, pushComponent]

/-- C5 witness: the two concrete import resolutions named by the spec. -/
theorem import_path_resolution_witness :
    importFullPath [Component.root, Component.normal "proj"]
        "/proj/sub/b.typ" "a.typ"
      = [Component.root, Component.normal "proj", Component.normal "sub",
         Component.normal "a.typ"] ∧
    importFullPath [Component.root, Component.normal "proj"]
        "/proj/sub/b.typ" "/a.typ"
      = [Component.root, Component.normal "proj",
         Component.normal "a.typ"] :=
  And.intro (import_path_resolution [] [] "" "").1
    (import_path_resolution [] [] "" "").2.1
